import Mathlib

/-!
# Verification of the EmailScraperApp contact-discovery core

This file gives a shallow embedding, in Lean 4, of the email-extraction and
job-scheduling logic of the EmailScraperApp repository
(`src/email_spider.py` and `src/utils.py`), and proves or refutes the
specification claims about it.

Modelling conventions:
* Python strings are `List Char` / `String`; inputs are treated as ASCII text
  (the Python regexes are used with `re.I` on ASCII classes).
* Python `set` is `Finset String`.
* The Python regular expression
  `(?i)\b(?!.*\.(?:png|jpg|jpeg|gif|bmp))([a-z0-9._%+-]+@[a-z0-9.-]+\.[a-z]{2,})\b`
  is compiled by hand into an executable scanner with the same
  leftmost-match, greedy-with-backtracking semantics (`findallEmails`).
* Network and browser effects (requests.get, Selenium, Google-Maps scraping)
  are modelled by explicit environments/oracles supplying their outcomes.
-/

/-! ## Basic list/string utilities -/

/-- Lowercase a character list (models Python `str.lower()` on ASCII text). -/
def toLowerL (s : List Char) : List Char := s.map Char.toLower

/-- `startsWithL pat s`: `s` starts with `pat` (exact characters). -/
def startsWithL : List Char → List Char → Bool
  | [], _ => true
  | _ :: _, [] => false
  | p :: ps, c :: cs => (p == c) && startsWithL ps cs

/-- `containsSub n h`: `n` occurs as a contiguous substring of `h`
(models Python `n in h`). -/
def containsSub (n : List Char) : List Char → Bool
  | [] => n.isEmpty
  | c :: cs => startsWithL n (c :: cs) || containsSub n cs

/-- Case-insensitive prefix test: `pat` (given lowercase) is a prefix of
`s` up to lowercasing (models a `(?i)`-anchored literal). -/
def startsWithCI : List Char → List Char → Bool
  | [], _ => true
  | _ :: _, [] => false
  | p :: ps, c :: cs => (Char.toLower c == p) && startsWithCI ps cs

/-- The suffix of `s` after the last occurrence of `pat`, if `pat` occurs.
Models the `[-1]` element of Python `s.split(pat)`. -/
def afterLastOcc (pat : List Char) : List Char → Option (List Char)
  | [] => none
  | c :: t =>
    match afterLastOcc pat t with
    | some r => some r
    | none =>
      if startsWithL pat (c :: t) then some (List.drop pat.length (c :: t))
      else none

/-- Models Python `s.split(pat)[-1]`. -/
def pySplitLast (pat s : List Char) : List Char := (afterLastOcc pat s).getD s

/-! ## Character classes of the email regular expressions -/

/-- Python regex word character `\w` (ASCII): letters, digits, underscore. -/
def isWordChar (c : Char) : Bool := c.isAlpha || c.isDigit || c == '_'

/-- The class `[a-z0-9._%+-]` under `(?i)`. -/
def isLocalChar (c : Char) : Bool :=
  c.isAlpha || c.isDigit || c == '.' || c == '_' || c == '%' || c == '+' || c == '-'

/-- The class `[a-z0-9.-]` under `(?i)`. -/
def isDomainChar (c : Char) : Bool :=
  c.isAlpha || c.isDigit || c == '.' || c == '-'

/-! ## The email core pattern `[a-z0-9._%+-]+@[a-z0-9.-]+\.[a-z]{2,}`

The free-text pass wraps this core in `\b … \b` and a negative lookahead;
the `mailto:` pass of `utils.py` uses the bare core.  The scanner below
reproduces the regex engine's behaviour: the local part and the domain run
are matched greedily; the `+`-loop of the domain backtracks from the right
over the positions of `.`; `[a-z]{2,}` takes the maximal letter run (any
shorter choice is immediately refuted by the following `\b`, whose check is
switched off for the core-only variant). -/

structure EmailMatch where
  lp : List Char
  dom : List Char
  tld : List Char
  rest : List Char

/-- The full matched email text: `lp @ dom . tld`. -/
def emailString (m : EmailMatch) : List Char :=
  m.lp ++ '@' :: (m.dom ++ '.' :: m.tld)

/-- The trailing `\b` after `[a-z]{2,}`: the next character (if any) must be
a non-word character. -/
def boundaryAfter : List Char → Bool
  | [] => true
  | c :: _ => !(isWordChar c)

/-- Backtracking search over the dot positions of the maximal domain run `R`
(from the rightmost dot leftwards), as the regex engine performs it.
The argument is the candidate dot index; indices `≥ 1` are tried. -/
def tryDot (wb : Bool) (lp R rest : List Char) : Nat → Option EmailMatch
  | 0 => none
  | p + 1 =>
    match R.drop (p + 1) with
    | '.' :: afterDot =>
      let t := afterDot.takeWhile Char.isAlpha
      let leftover := afterDot.dropWhile Char.isAlpha ++ rest
      if 2 ≤ t.length && (!wb || boundaryAfter leftover) then
        some ⟨lp, R.take (p + 1), t, leftover⟩
      else tryDot wb lp R rest p
    | _ => tryDot wb lp R rest p

/-- Match the email core at the start of `s`.  `wb` switches the trailing
word-boundary requirement on (free-text pass) or off (`mailto:` pass). -/
def matchEmailAt (wb : Bool) (s : List Char) : Option EmailMatch :=
  let lp := s.takeWhile isLocalChar
  match s.dropWhile isLocalChar with
  | '@' :: r2 =>
    if lp.isEmpty then none
    else
      let R := r2.takeWhile isDomainChar
      let rest := r2.dropWhile isDomainChar
      tryDot wb lp R rest (R.length - 1)
  | _ => none

/-! ## The negative lookahead `(?!.*\.(?:png|jpg|jpeg|gif|bmp))` -/

/-- Does `s` begin with `.png`, `.jpg`, `.jpeg`, `.gif` or `.bmp`
(case-insensitively)? -/
def imageExtAt : List Char → Bool
  | '.' :: r =>
    let rl := toLowerL (r.take 4)
    startsWithL "png".data rl || startsWithL "jpg".data rl ||
      startsWithL "jpeg".data rl || startsWithL "gif".data rl ||
      startsWithL "bmp".data rl
  | _ => false

/-- Truth of the lookahead body `.*\.(?:png|jpg|jpeg|gif|bmp)` at the current
position: an image-extension occurrence is reachable without crossing a
newline (Python `.` does not match `\n`). -/
def hasImageExtAhead : List Char → Bool
  | [] => false
  | c :: rest =>
    if c = '\n' then false
    else imageExtAt (c :: rest) || hasImageExtAhead rest

/-! ## `re.findall` over the two patterns -/

/-- The scan loop of
`re.findall(r"(?i)\b(?!.*\.(?:png|jpg|jpeg|gif|bmp))([a-z0-9._%+-]+@[a-z0-9.-]+\.[a-z]{2,})\b", html)`.
`prevW` is the word-character status of the previous character (for `\b`);
scanning resumes after the end of each successful match. -/
def scanEmailsAux : Nat → Bool → List Char → List (List Char)
  | 0, _, _ => []
  | _ + 1, _, [] => []
  | fuel + 1, prevW, c :: rest =>
    if (prevW != isWordChar c) && !hasImageExtAhead (c :: rest) then
      match matchEmailAt true (c :: rest) with
      | some m => emailString m :: scanEmailsAux fuel true m.rest
      | none => scanEmailsAux fuel (isWordChar c) rest
    else scanEmailsAux fuel (isWordChar c) rest

def findallEmails (s : List Char) : List (List Char) :=
  scanEmailsAux (s.length + 1) false s

/-- The scan loop of
`re.findall(r'(?i)mailto:([a-z0-9._%+-]+@[a-z0-9.-]+\.[a-z]{2,})', html)`
(no word boundaries, no lookahead). -/
def scanMailtoAux : Nat → List Char → List (List Char)
  | 0, _ => []
  | _ + 1, [] => []
  | fuel + 1, c :: rest =>
    if startsWithCI "mailto:".data (c :: rest) then
      match matchEmailAt false (List.drop 7 (c :: rest)) with
      | some m => emailString m :: scanMailtoAux fuel m.rest
      | none => scanMailtoAux fuel rest
    else scanMailtoAux fuel rest

def findallMailto (s : List Char) : List (List Char) :=
  scanMailtoAux (s.length + 1) s

/-! ## Anchor elements with a `mailto:` href

Models the library call
`BeautifulSoup(html, "html.parser").find_all("a", href=re.compile(r"^mailto:", re.I))`
of `email_spider.py` on well-formed markup: scan for `<a`-tags, collect the
values of their `href` attributes.  The html.parser tokenizer decodes HTML
character references in attribute values before BeautifulSoup stores them
(`&#109;ailto:…` is seen by the `^mailto:` filter as `mailto:…`), so the
collected values are decoded: the model covers semicolon-terminated decimal
and hexadecimal numeric references and the core named references
`amp`/`lt`/`gt`/`quot`/`apos`; a reference that does not parse is left
verbatim, and text without `&` is unchanged. -/

def squote : Char := Char.ofNat 39

/-- Hexadecimal digit, for `&#x…;` references. -/
def isHexDigitCh (c : Char) : Bool :=
  c.isDigit || (('a' ≤ c) && (c ≤ 'f')) || (('A' ≤ c) && (c ≤ 'F'))

def hexDigitVal (c : Char) : Nat :=
  if c.isDigit then c.toNat - 48
  else if c ≤ 'F' then c.toNat - 55
  else c.toNat - 87

def decVal (ds : List Char) : Nat := ds.foldl (fun a c => a * 10 + (c.toNat - 48)) 0

def hexVal (ds : List Char) : Nat := ds.foldl (fun a c => a * 16 + hexDigitVal c) 0

/-- A scalar value a numeric reference may decode to. -/
def validCode (n : Nat) : Bool :=
  decide (n < 0xd800) || (decide (0xe000 ≤ n) && decide (n < 0x110000))

/-- The core named character references. -/
def namedRef (name : List Char) : Option Char :=
  if name == "amp".data then some '&'
  else if name == "lt".data then some '<'
  else if name == "gt".data then some '>'
  else if name == "quot".data then some '"'
  else if name == "apos".data then some squote
  else none

/-- Parse one character reference at the head of the input (which starts
with `&`): the decoded character and the input after the `;`. -/
def parseCharRef : List Char → Option (Char × List Char)
  | '&' :: '#' :: r =>
    match r with
    | x :: r2 =>
      if x == 'x' || x == 'X' then
        let ds := r2.takeWhile isHexDigitCh
        match r2.dropWhile isHexDigitCh with
        | ';' :: r4 =>
          if !ds.isEmpty && validCode (hexVal ds) then
            some (Char.ofNat (hexVal ds), r4)
          else none
        | _ => none
      else
        let ds := r.takeWhile Char.isDigit
        match r.dropWhile Char.isDigit with
        | ';' :: r4 =>
          if !ds.isEmpty && validCode (decVal ds) then
            some (Char.ofNat (decVal ds), r4)
          else none
        | _ => none
    | [] => none
  | '&' :: r =>
    let name := r.takeWhile Char.isAlpha
    match r.dropWhile Char.isAlpha, namedRef name with
    | ';' :: r4, some d => some (d, r4)
    | _, _ => none
  | _ => none

/-- Decode the character references of a string, as html.parser does on
attribute values. -/
def decodeCharRefsAux : Nat → List Char → List Char
  | 0, s => s
  | _ + 1, [] => []
  | fuel + 1, c :: rest =>
    if c = '&' then
      match parseCharRef (c :: rest) with
      | some (d, r2) => d :: decodeCharRefsAux fuel r2
      | none => c :: decodeCharRefsAux fuel rest
    else c :: decodeCharRefsAux fuel rest

def decodeCharRefs (s : List Char) : List Char := decodeCharRefsAux (s.length + 1) s

def isTagWs (c : Char) : Bool := c == ' ' || c == '\t' || c == '\n' || c == '\r'

def isAttrNameChar (c : Char) : Bool :=
  !(isTagWs c) && c != '=' && c != '>' && c != '/'

/-- Read an attribute value after `=`: a quoted value up to the matching
quote, or an unquoted value up to whitespace or `>`.  Returns the value and
the remaining input. -/
def attrValue (r2 : List Char) : List Char × List Char :=
  match r2 with
  | q :: r3 =>
    if q == '"' || q == squote then
      (r3.takeWhile (fun d => d != q), (r3.dropWhile (fun d => d != q)).drop 1)
    else
      (r2.takeWhile (fun d => !(isTagWs d) && d != '>'),
        r2.dropWhile (fun d => !(isTagWs d) && d != '>'))
  | [] => ([], [])

/-- Scan the attribute list of an open tag, returning the value of the first
`href` attribute (if any) and the input following the closing `>`. -/
def parseAttrsAux : Nat → Option (List Char) → List Char → Option (List Char) × List Char
  | 0, found, s => (found, s)
  | _ + 1, found, [] => (found, [])
  | fuel + 1, found, c :: rest =>
    if c == '>' then (found, rest)
    else if isTagWs c || c == '/' then parseAttrsAux fuel found rest
    else
      let name := (c :: rest).takeWhile isAttrNameChar
      match (c :: rest).dropWhile isAttrNameChar with
      | '=' :: r2 =>
        let va := attrValue r2
        if toLowerL name == "href".data && found.isNone then
          parseAttrsAux fuel (some va.1) va.2
        else parseAttrsAux fuel found va.2
      | r1 => parseAttrsAux fuel found r1

/-- Is the character after the tag name `a` a valid end of the name? -/
def tagNameEnds : List Char → Bool
  | [] => true
  | d :: _ => isTagWs d || d == '>' || d == '/'

/-- Collect the `href` values of all `<a …>` tags, in document order, with
their character references decoded. -/
def anchorHrefsAux : Nat → List Char → List (List Char)
  | 0, _ => []
  | _ + 1, [] => []
  | fuel + 1, c :: rest =>
    if c == '<' then
      match rest with
      | a :: r2 =>
        if (a == 'a' || a == 'A') && tagNameEnds r2 then
          match parseAttrsAux (r2.length + 1) none r2 with
          | (some h, r3) => decodeCharRefs h :: anchorHrefsAux fuel r3
          | (none, r3) => anchorHrefsAux fuel r3
        else anchorHrefsAux fuel rest
      | [] => []
    else anchorHrefsAux fuel rest

def anchorHrefs (s : List Char) : List (List Char) :=
  anchorHrefsAux (s.length + 1) s

/-! ## The two extractor implementations -/

/-- `not any(word in match.lower() for word in words)`. -/
def noiseFree (words : List (List Char)) (m : List Char) : Bool :=
  !(words.any (fun w => containsSub w (toLowerL m)))

/-- The blocklist of the free-text pass: `["logo", "icon", "banner"]`. -/
def noise3 : List (List Char) := ["logo".data, "icon".data, "banner".data]

/-- The blocklist of the `mailto:` pass: `["logo", "icon"]`. -/
def noise2 : List (List Char) := ["logo".data, "icon".data]

namespace EmailSpider

/-- `extract_emails_from_html` of `src/email_spider.py`: the free-text regex
pass with the logo/icon/banner filter, unioned with the addresses taken from
`mailto:` anchor hrefs (split at `mailto:` and `?`), filtered by logo/icon
only. -/
def extract_emails_from_html (html : String) : Finset String :=
  let s := html.data
  let pass1 := (findallEmails s).foldl
    (fun acc m => if noiseFree noise3 m then insert (String.mk m) acc else acc)
    (∅ : Finset String)
  (anchorHrefs s).foldl
    (fun acc h =>
      if startsWithCI "mailto:".data h then
        let e := List.takeWhile (fun d => d != '?') (pySplitLast "mailto:".data h)
        if !e.isEmpty && noiseFree noise2 e then insert (String.mk e) acc else acc
      else acc)
    pass1

end EmailSpider

namespace Utils

/-- `extract_emails_from_html` of `src/utils.py`: the same free-text regex
pass, unioned with the captures of the regex
`(?i)mailto:([a-z0-9._%+-]+@[a-z0-9.-]+\.[a-z]{2,})`, filtered by logo/icon
only. -/
def extract_emails_from_html (html : String) : Finset String :=
  let s := html.data
  let pass1 := (findallEmails s).foldl
    (fun acc m => if noiseFree noise3 m then insert (String.mk m) acc else acc)
    (∅ : Finset String)
  (findallMailto s).foldl
    (fun acc m => if noiseFree noise2 m then insert (String.mk m) acc else acc)
    pass1

end Utils

/-! ## Discovery orchestrator (`fetch_emails_with_requests`,
`scrape_emails_with_selenium`, `get_emails_for_website`)

The network and the browser are modelled by an environment recording the
outcome of each I/O action: the static fetch either raises (timeout,
connection error — `Except.error`) or returns a response with a status code
and a body (`requests.get` raises on neither, and the code reads only
`resp.text`); the rendered base-page load either raises or yields the page
source; `click_contact_page` yields some markup or `""` (its failure value).
The `Nat` components of the results count invocations of the rendering
strategy and of contact-page navigation, for the call-count properties. -/

structure FetchEnv where
  staticResp : Except Unit (Nat × String)
  renderPage : Except Unit String
  contactHtml : String

/-- `fetch_emails_with_requests` of `src/email_spider.py`: on any exception
from the request, return the empty set; otherwise extract emails from
`resp.text` (the status code is never inspected). -/
def fetch_emails_with_requests (env : FetchEnv) : Finset String :=
  match env.staticResp with
  | Except.error _ => ∅
  | Except.ok r => EmailSpider.extract_emails_from_html r.2

/-- `scrape_emails_with_selenium` of `src/email_spider.py`.  Returns the
found emails together with the number of `click_contact_page` invocations.
If loading the base page raises, the empty set is returned and the contact
page is never attempted; otherwise, when the base page yields no emails,
`click_contact_page` is invoked once and its markup (when non-empty) is
extracted as well. -/
def scrape_emails_with_selenium (env : FetchEnv) : Finset String × Nat :=
  match env.renderPage with
  | Except.error _ => (∅, 0)
  | Except.ok html =>
    let found := EmailSpider.extract_emails_from_html html
    if found ≠ ∅ then (found, 0)
    else if env.contactHtml ≠ "" then
      (found ∪ EmailSpider.extract_emails_from_html env.contactHtml, 1)
    else (found, 1)

/-- `get_emails_for_website` of `src/email_spider.py`.  Returns
`(emails, rendering-strategy invocations, contact-navigation invocations)`. -/
def get_emails_for_website (env : FetchEnv) : Finset String × Nat × Nat :=
  let emails := fetch_emails_with_requests env
  if emails ≠ ∅ then (emails, 0, 0)
  else
    let sc := scrape_emails_with_selenium env
    (sc.1, 1, sc.2)

/-! ## `parse_address` of `src/utils.py` -/

/-- ASCII whitespace, as stripped by Python `str.strip()` on this data. -/
def pyWs (c : Char) : Bool := c == ' ' || c == '\t' || c == '\n' || c == '\r'

/-- Python `str.strip()`. -/
def pyStripL (s : List Char) : List Char :=
  ((s.dropWhile pyWs).reverse.dropWhile pyWs).reverse

/-- Python `s.split(',')` (keeps empty pieces). -/
def pySplitComma : List Char → List (List Char)
  | [] => [[]]
  | c :: rest =>
    if c == ',' then [] :: pySplitComma rest
    else
      match pySplitComma rest with
      | [] => [[c]]
      | p :: ps => (c :: p) :: ps

/-- Python `str.split()` with no argument: split on whitespace runs,
dropping empty pieces. -/
def pySplitWsAux : Nat → List Char → List (List Char)
  | 0, _ => []
  | _ + 1, [] => []
  | fuel + 1, c :: rest =>
    if pyWs c then pySplitWsAux fuel rest
    else ((c :: rest).takeWhile (fun d => !pyWs d))
        :: pySplitWsAux fuel (rest.dropWhile (fun d => !pyWs d))

def pySplitWs (s : List Char) : List (List Char) := pySplitWsAux (s.length + 1) s

/-- Python `' '.join(tokens)`. -/
def joinSpace : List (List Char) → List Char
  | [] => []
  | [x] => x
  | x :: y :: rest => x ++ ' ' :: joinSpace (y :: rest)

/-- `parse_address` of `src/utils.py`: split on commas, strip, drop empty
parts; street/city/state per the source's branching. -/
def parse_address (full_address : String) : String × String × String :=
  let parts := ((pySplitComma full_address.data).map pyStripL).filter
    (fun p => !p.isEmpty)
  let street := parts.headD []
  let city := (parts.drop 1).headD []
  if parts.length > 2 then
    (String.mk street, String.mk city,
      String.mk ((pySplitWs ((parts.drop 2).headD [])).headD []))
  else if parts.length > 1 then
    let tokens := pySplitWs city
    if tokens.length > 1 then
      (String.mk street, String.mk (joinSpace tokens.dropLast),
        String.mk (tokens.getLastD []))
    else (String.mk street, String.mk city, "")
  else (String.mk street, String.mk city, "")

/-! ## Job scheduler & resume ledger (`process_csv`, `process_single_enhanced`)

A CSV row is modelled by the tuple `parse_row_enhanced` produces for it
(`maps_url, clinic_name, website, address, phone, email`); `process_csv` is
modelled from the point where each non-blank row has been parsed.  The
Google-Maps scrape and the per-website email discovery are modelled by an
oracle giving their outcomes (a failed Google-Maps scrape is the oracle
returning empty strings). -/

structure ParsedRow where
  maps_url : String
  clinic_name : String
  website : String
  address : String
  phone : String
  email : String
deriving DecidableEq, Repr

structure LedgerRow where
  FIRSTNAME : String
  WEBSITE : String
  ADDRESS : String
  CITY : String
  PHONE_NUMBER : String
  EMAIL : String
deriving DecidableEq, Repr

structure Oracle where
  gmaps : String → String × String × String
  webEmails : String → Finset String

/-- Python's truthiness-based `a or b` on strings. -/
def pyOr (a b : String) : String := if a ≠ "" then a else b

/-- The `(enhanced_phone, enhanced_website, enhanced_address)` triple of
`process_single_enhanced`: fields missing from the CSV are filled from the
Google-Maps scrape (the oracle; a failed scrape is `("", "", "")`). -/
def enhancedFields (o : Oracle) (t : ParsedRow) : String × String × String :=
  if t.phone = "" ∨ t.website = "" ∨ t.address = "" then
    let s := o.gmaps t.maps_url
    (pyOr t.phone s.1, pyOr t.website s.2.1, pyOr t.address s.2.2)
  else (t.phone, t.website, t.address)

/-- The email set chosen by `process_single_enhanced`: the CSV email when
present, else the websites's scraped emails when a website is known, else
none. -/
def chosenEmails (o : Oracle) (t : ParsedRow) : Finset String :=
  if t.email ≠ "" then {t.email}
  else if (enhancedFields o t).2.1 ≠ "" then o.webEmails (enhancedFields o t).2.1
  else ∅

/-- `process_single_enhanced` of `src/email_spider.py`: enhance missing
phone/website/address from Google Maps, derive the city from the address,
choose the email source (CSV email, else scrape the website, else none),
and emit one ledger row per email (the Python set's arbitrary iteration
order is fixed here to the sorted one), or a single row with an empty
`EMAIL` field when none was found. -/
def process_single_enhanced (o : Oracle) (t : ParsedRow) : List LedgerRow :=
  let ep := (enhancedFields o t).1
  let ew := (enhancedFields o t).2.1
  let ea := (enhancedFields o t).2.2
  let city := (parse_address ea).2.1
  if chosenEmails o t ≠ ∅ then
    ((chosenEmails o t).sort (fun a b => a ≤ b)).map
      (fun e => ⟨t.clinic_name, ew, ea, city, ep, e⟩)
  else [⟨t.clinic_name, ew, ea, city, ep, ""⟩]

/-- A row's deduplication identifier: `website or maps_url`. -/
def rowIdent (r : ParsedRow) : String := pyOr r.website r.maps_url

/-- The row loop of `process_csv` (lines 578–599): skip rows missing the
maps URL or the name, skip rows whose identifier was already processed,
queue the rest, recording each queued identifier.  Returns the queued tasks
in order together with the final processed set. -/
def queueTasks : List ParsedRow → Finset String → List ParsedRow × Finset String
  | [], processed => ([], processed)
  | r :: rest, processed =>
    if r.maps_url = "" ∨ r.clinic_name = "" then queueTasks rest processed
    else if rowIdent r ∈ processed then queueTasks rest processed
    else
      let step := queueTasks rest (insert (rowIdent r) processed)
      (r :: step.1, step.2)

/-- The ledger load of `process_csv` (lines 516–526): the set of non-empty
`WEBSITE` fields of the existing output rows. -/
def loadProcessed (existing : List LedgerRow) : Finset String :=
  existing.foldl (fun s r => if r.WEBSITE ≠ "" then insert r.WEBSITE s else s) ∅

/-- `process_csv` of `src/email_spider.py`, modelled over parsed rows:
seed the output rows and the processed set from the existing output file
unless `force` is set (a missing file is `existing = []`), queue the
unprocessed valid rows, run `process_single_enhanced` on each queued task
(results in task order — one completion order of the worker pool), and
write the concatenation back.  Returns `(written ledger, dispatched tasks)`. -/
def process_csv (o : Oracle) (force : Bool) (existing : List LedgerRow)
    (rows : List ParsedRow) : List LedgerRow × List ParsedRow :=
  let output0 := if force then [] else existing
  let processed0 := if force then (∅ : Finset String) else loadProcessed existing
  let tasks := (queueTasks rows processed0).1
  let results := tasks.flatMap (process_single_enhanced o)
  (output0 ++ results, tasks)

/-! ## The email grammar of the specification

`local-part@domain.tld` with `tld` at least two letters — the shape of the
capture group `[a-z0-9._%+-]+@[a-z0-9.-]+\.[a-z]{2,}` matching the whole
string. -/

/-- Decidable checker for the email grammar on a character list. -/
def emailGrammar (s : List Char) : Bool :=
  let lp := s.takeWhile isLocalChar
  match s.dropWhile isLocalChar with
  | '@' :: d =>
    !lp.isEmpty &&
      (let rev := d.reverse
       let t := rev.takeWhile Char.isAlpha
       match rev.dropWhile Char.isAlpha with
       | '.' :: x => decide (2 ≤ t.length) && !x.isEmpty && x.all isDomainChar
       | _ => false)
  | _ => false

/-- Decidable checker for the email grammar on a string. -/
def isEmailB (s : String) : Bool := emailGrammar s.data

/-! ## Supporting lemmas for the image-guard claim -/

theorem hasImageExtAhead_of_decomp : ∀ (pre post : List Char),
    (∀ c ∈ pre, c ≠ '\n') → imageExtAt post = true →
    hasImageExtAhead (pre ++ post) = true := by
  intro pre
  induction pre with
  | nil =>
    intro post hpre hext
    cases post with
    | nil => simp [imageExtAt] at hext
    | cons c r =>
      have hc : c = '.' := by
        unfold imageExtAt at hext
        split at hext
        · rename_i r0 heq
          injection heq with h1 h2
        · exact absurd hext (by simp)
      subst hc
      show hasImageExtAhead ('.' :: r) = true
      unfold hasImageExtAhead
      rw [if_neg (by decide), hext]
      simp
  | cons p pre0 ih =>
    intro post hpre hext
    show hasImageExtAhead (p :: (pre0 ++ post)) = true
    unfold hasImageExtAhead
    rw [if_neg (hpre p (List.mem_cons_self _ _)),
      ih post (fun c hc => hpre c (List.mem_cons_of_mem p hc)) hext]
    simp

theorem hasImageExtAhead_decomp : ∀ (s : List Char), hasImageExtAhead s = true →
    ∃ pre post, s = pre ++ post ∧ (∀ c ∈ pre, c ≠ '\n') ∧ imageExtAt post = true := by
  intro s
  induction s with
  | nil => intro h; simp [hasImageExtAhead] at h
  | cons c rest ih =>
    intro h
    unfold hasImageExtAhead at h
    split at h
    · exact absurd h (by simp)
    · rename_i hnl
      rcases Bool.or_eq_true _ _ |>.mp h with h1 | h2
      · exact ⟨[], c :: rest, rfl, by simp, h1⟩
      · rcases ih h2 with ⟨pre, post, heq, hpre, hext⟩
        refine ⟨c :: pre, post, by rw [heq]; rfl, ?_, hext⟩
        intro d hd
        rcases List.mem_cons.mp hd with rfl | hdm
        · exact hnl
        · exact hpre d hdm

theorem hasImageExtAhead_iff (s : List Char) :
    hasImageExtAhead s = true ↔
      ∃ pre post, s = pre ++ post ∧ (∀ c ∈ pre, c ≠ '\n') ∧ imageExtAt post = true := by
  constructor
  · exact hasImageExtAhead_decomp s
  · rintro ⟨pre, post, rfl, hpre, hext⟩
    exact hasImageExtAhead_of_decomp pre post hpre hext

/-! ## Claim theorems -/

/-- C1: the claim states that no extracted string contains "logo", "icon"
or "banner" in any casing, the filter being applied identically to
free-text and to mailto-derived matches.  The code contradicts it: the
mailto pass filters only "logo" and "icon", so a `mailto:banner@site.com`
anchor yields an output string containing "banner". -/
theorem C1_banner_escapes_mailto_filter :
    EmailSpider.extract_emails_from_html "<a href=\"mailto:banner@site.com\">Mail</a>"
      = {"banner@site.com"} ∧
    containsSub "banner".data (toLowerL "banner@site.com".data) = true := by decide

/-- C5 counterexample: the claim states a free-text match is rejected
exactly when immediately followed, within the same token, by an image
extension.  In `"a@b.com x.png"` the email is not immediately followed by
an extension, yet the lookahead `(?!.*\.(?:png|…))` sees the later `.png`
on the same line and rejects it: the output is empty. -/
theorem C5_guard_not_token_local :
    EmailSpider.extract_emails_from_html "a@b.com x.png" = ∅ ∧
    isEmailB "a@b.com" = true := by decide

/-- C5 amended: the image-extension guard rejects a free-text match exactly
when `.png`/`.jpg`/`.jpeg`/`.gif`/`.bmp` occurs at or after the match start
with no intervening newline (not only within the matched token): the
guard's lookahead holds on an input if and only if it splits into a
newline-free prefix followed by an image extension.  The claim's concrete
example still holds for both implementations, and a newline between the
match and the extension disables the guard. -/
theorem C5_image_guard_line_scoped :
    (∀ s : List Char, hasImageExtAhead s = true ↔
        ∃ pre post, s = pre ++ post ∧ (∀ c ∈ pre, c ≠ '\n') ∧ imageExtAt post = true) ∧
    EmailSpider.extract_emails_from_html
        "logo@images.png <a href=\"mailto:info@site.com?subject=hi\">Mail</a>"
      = {"info@site.com"} ∧
    Utils.extract_emails_from_html
        "logo@images.png <a href=\"mailto:info@site.com?subject=hi\">Mail</a>"
      = {"info@site.com"} ∧
    EmailSpider.extract_emails_from_html "a@b.com\nx.png" = {"a@b.com"} :=
  ⟨fun s => hasImageExtAhead_iff s, by decide, by decide, by decide⟩

theorem C5_image_guard_line_scoped_witness :
    hasImageExtAhead "a@b.com x.png".data = true :=
  (C5_image_guard_line_scoped.1 "a@b.com x.png".data).mpr
    ⟨"a@b.com x".data, ".png".data, by decide, by decide, by decide⟩

/-- C6 counterexample: the claim states every output string matches the
email grammar, in particular mailto-contributed ones.  The spider's mailto
pass takes the href text after `mailto:` verbatim (up to `?`) with no
grammar check: `<a href="mailto:xyz">` puts the non-email `"xyz"` in the
output. -/
theorem C6_mailto_not_grammar_checked :
    EmailSpider.extract_emails_from_html "<a href=\"mailto:xyz\">m</a>" = {"xyz"} ∧
    isEmailB "xyz" = false := by decide

/-- C9 counterexample: the two implementations of
`extract_emails_from_html` differ.  On `"see mailto:a@b.com x.png"` the
regex-based `utils.py` version captures `a@b.com` from the `mailto:` text
(its mailto regex has no image-extension lookahead), while the
BeautifulSoup-based `email_spider.py` version finds no anchor element and
its free-text pass rejects the match because of the trailing `.png`. -/
theorem C9_implementations_differ :
    Utils.extract_emails_from_html "see mailto:a@b.com x.png" = {"a@b.com"} ∧
    EmailSpider.extract_emails_from_html "see mailto:a@b.com x.png" = ∅ := by decide

/-- C2 counterexample: the claim states that whenever the rendering pass
yields zero emails, contact-page navigation is invoked exactly once before
returning.  When loading the base page in the rendering session raises, the
rendering pass yields zero emails and returns without ever invoking
contact-page navigation. -/
theorem C2_render_failure_skips_contact_nav :
    fetch_emails_with_requests ⟨Except.ok (200, ""), Except.error (), ""⟩ = ∅ ∧
    get_emails_for_website ⟨Except.ok (200, ""), Except.error (), ""⟩ = (∅, 1, 0) := by
  decide

/-- C8 counterexample: the claim states a non-2xx response is treated as
zero emails from the static strategy, triggering escalation.  The code
never inspects the status code: a 404 body containing an email yields a
non-empty static result and no escalation. -/
theorem C8_non2xx_body_still_used :
    fetch_emails_with_requests ⟨Except.ok (404, "<p>a@b.com</p>"), Except.ok "", ""⟩
      = {"a@b.com"} ∧
    get_emails_for_website ⟨Except.ok (404, "<p>a@b.com</p>"), Except.ok "", ""⟩
      = ({"a@b.com"}, 0, 0) := by decide

/-- C3 counterexample: the claim states a second `force=false` run over the
same jobs with run 1's intact ledger dispatches nothing and leaves the
ledger unchanged.  A job whose parsed website is empty is identified by its
maps URL, but its ledger row records the (empty) enhanced website, so run 2
does not skip it: the job is dispatched again and the ledger grows. -/
theorem C3_mapsurl_job_not_idempotent :
    (process_csv ⟨fun _ => ("", "", ""), fun _ => ∅⟩ false
        (process_csv ⟨fun _ => ("", "", ""), fun _ => ∅⟩ false []
          [⟨"https://www.google.com/maps/place/A", "A", "", "", "", ""⟩]).1
        [⟨"https://www.google.com/maps/place/A", "A", "", "", "", ""⟩]).2
      = [⟨"https://www.google.com/maps/place/A", "A", "", "", "", ""⟩] ∧
    (process_csv ⟨fun _ => ("", "", ""), fun _ => ∅⟩ false
        (process_csv ⟨fun _ => ("", "", ""), fun _ => ∅⟩ false []
          [⟨"https://www.google.com/maps/place/A", "A", "", "", "", ""⟩]).1
        [⟨"https://www.google.com/maps/place/A", "A", "", "", "", ""⟩]).1
      ≠ (process_csv ⟨fun _ => ("", "", ""), fun _ => ∅⟩ false []
          [⟨"https://www.google.com/maps/place/A", "A", "", "", "", ""⟩]).1 := by decide

/-! ## Supporting lemmas for the scheduler claims -/

theorem queueTasks_sub : ∀ (rows : List ParsedRow) (s : Finset String),
    ∀ t ∈ (queueTasks rows s).1, t ∈ rows := by
  intro rows
  induction rows with
  | nil => intro s t ht; simp [queueTasks] at ht
  | cons r rest ih =>
    intro s t ht
    simp only [queueTasks] at ht
    split at ht
    · exact List.mem_cons_of_mem r (ih s t ht)
    · split at ht
      · exact List.mem_cons_of_mem r (ih s t ht)
      · rcases List.mem_cons.mp ht with h | h
        · exact h ▸ List.mem_cons_self r rest
        · exact List.mem_cons_of_mem r (ih _ t h)

theorem queueTasks_valid : ∀ (rows : List ParsedRow) (s : Finset String),
    ∀ t ∈ (queueTasks rows s).1, ¬(t.maps_url = "" ∨ t.clinic_name = "") := by
  intro rows
  induction rows with
  | nil => intro s t ht; simp [queueTasks] at ht
  | cons r rest ih =>
    intro s t ht
    simp only [queueTasks] at ht
    split at ht
    · exact ih s t ht
    · split at ht
      · exact ih s t ht
      · rcases List.mem_cons.mp ht with h | h
        · subst h; assumption
        · exact ih _ t h

theorem queueTasks_not_mem : ∀ (rows : List ParsedRow) (s : Finset String),
    ∀ t ∈ (queueTasks rows s).1, rowIdent t ∉ s := by
  intro rows
  induction rows with
  | nil => intro s t ht; simp [queueTasks] at ht
  | cons r rest ih =>
    intro s t ht
    simp only [queueTasks] at ht
    split at ht
    · exact ih s t ht
    · split at ht
      · exact ih s t ht
      · rcases List.mem_cons.mp ht with h | h
        · subst h; assumption
        · intro hmem
          exact ih _ t h (Finset.mem_insert_of_mem hmem)

theorem queueTasks_nodup : ∀ (rows : List ParsedRow) (s : Finset String),
    ((queueTasks rows s).1.map rowIdent).Nodup := by
  intro rows
  induction rows with
  | nil => intro s; simp [queueTasks]
  | cons r rest ih =>
    intro s
    simp only [queueTasks]
    split
    · exact ih s
    · split
      · exact ih s
      · simp only [List.map_cons, List.nodup_cons]
        refine ⟨?_, ih _⟩
        intro hmem
        rcases List.mem_map.mp hmem with ⟨t, ht, hid⟩
        exact queueTasks_not_mem rest _ t ht (hid ▸ Finset.mem_insert_self _ _)

theorem queueTasks_mono : ∀ (rows : List ParsedRow) (s : Finset String),
    s ⊆ (queueTasks rows s).2 := by
  intro rows
  induction rows with
  | nil => intro s; simp [queueTasks]
  | cons r rest ih =>
    intro s
    simp only [queueTasks]
    split
    · exact ih s
    · split
      · exact ih s
      · exact fun x hx => ih _ (Finset.mem_insert_of_mem hx)

theorem queueTasks_covers : ∀ (rows : List ParsedRow) (s : Finset String),
    ∀ r ∈ rows, ¬(r.maps_url = "" ∨ r.clinic_name = "") →
      rowIdent r ∈ (queueTasks rows s).2 := by
  intro rows
  induction rows with
  | nil => intro s r hr; simp at hr
  | cons a rest ih =>
    intro s r hr hvalid
    rcases List.mem_cons.mp hr with h | h
    · subst h
      simp only [queueTasks]
      split
      · exact absurd ‹_› hvalid
      · split
        · exact queueTasks_mono rest s ‹_›
        · exact queueTasks_mono rest _ (Finset.mem_insert_self _ _)
    · simp only [queueTasks]
      split
      · exact ih s r h hvalid
      · split
        · exact ih s r h hvalid
        · exact ih _ r h hvalid

theorem queueTasks_final_mem : ∀ (rows : List ParsedRow) (s : Finset String),
    ∀ x ∈ (queueTasks rows s).2,
      x ∈ s ∨ ∃ t ∈ (queueTasks rows s).1, rowIdent t = x := by
  intro rows
  induction rows with
  | nil => intro s x hx; simp [queueTasks] at hx ⊢; exact hx
  | cons r rest ih =>
    intro s x hx
    simp only [queueTasks] at hx ⊢
    by_cases h1 : r.maps_url = "" ∨ r.clinic_name = ""
    · rw [if_pos h1] at hx ⊢; exact ih s x hx
    · rw [if_neg h1] at hx ⊢
      by_cases h2 : rowIdent r ∈ s
      · rw [if_pos h2] at hx ⊢; exact ih s x hx
      · rw [if_neg h2] at hx ⊢
        rcases ih _ x hx with hmem | ⟨t, ht, hid⟩
        · rcases Finset.mem_insert.mp hmem with h | h
          · exact Or.inr ⟨r, List.mem_cons_self _ _, h.symm⟩
          · exact Or.inl h
        · exact Or.inr ⟨t, List.mem_cons_of_mem r ht, hid⟩

theorem queueTasks_skip_all : ∀ (rows : List ParsedRow) (s : Finset String),
    (∀ r ∈ rows, ¬(r.maps_url = "" ∨ r.clinic_name = "") → rowIdent r ∈ s) →
    (queueTasks rows s).1 = [] := by
  intro rows
  induction rows with
  | nil => intro s _; simp [queueTasks]
  | cons r rest ih =>
    intro s hall
    simp only [queueTasks]
    split
    · exact ih s (fun a ha => hall a (List.mem_cons_of_mem r ha))
    · split
      · exact ih s (fun a ha => hall a (List.mem_cons_of_mem r ha))
      · exact absurd (hall r (List.mem_cons_self _ _) ‹_›) ‹_›

theorem mem_loadProcessed (l : List LedgerRow) (x : String) :
    x ∈ loadProcessed l ↔ x ≠ "" ∧ ∃ r ∈ l, r.WEBSITE = x := by
  have key : ∀ (l : List LedgerRow) (acc : Finset String),
      x ∈ l.foldl (fun s r => if r.WEBSITE ≠ "" then insert r.WEBSITE s else s) acc ↔
        x ∈ acc ∨ (x ≠ "" ∧ ∃ r ∈ l, r.WEBSITE = x) := by
    intro l
    induction l with
    | nil => intro acc; simp
    | cons a rest ih =>
      intro acc
      simp only [List.foldl_cons]
      rw [ih]
      by_cases hw : a.WEBSITE = ""
      · rw [if_neg (by simp [hw])]
        constructor
        · rintro (h | ⟨hx, r, hr, hweb⟩)
          · exact Or.inl h
          · exact Or.inr ⟨hx, r, List.mem_cons_of_mem a hr, hweb⟩
        · rintro (h | ⟨hx, r, hr, hweb⟩)
          · exact Or.inl h
          · rcases List.mem_cons.mp hr with h | h
            · exact absurd (show x = "" by rw [← hweb, h]; exact hw) hx
            · exact Or.inr ⟨hx, r, h, hweb⟩
      · rw [if_pos (by simp [hw])]
        simp only [Finset.mem_insert]
        constructor
        · rintro ((h | h) | ⟨hx, r, hr, hweb⟩)
          · exact Or.inr ⟨by rw [h]; exact hw, a, List.mem_cons_self a rest, h.symm⟩
          · exact Or.inl h
          · exact Or.inr ⟨hx, r, List.mem_cons_of_mem a hr, hweb⟩
        · rintro (h | ⟨hx, r, hr, hweb⟩)
          · exact Or.inl (Or.inr h)
          · rcases List.mem_cons.mp hr with h | h
            · exact Or.inl (Or.inl (by rw [← hweb, h]))
            · exact Or.inr ⟨hx, r, h, hweb⟩
  have hkey := key l ∅
  unfold loadProcessed
  rw [hkey]
  simp

theorem process_single_ne_nil (o : Oracle) (t : ParsedRow) :
    process_single_enhanced o t ≠ [] := by
  unfold process_single_enhanced
  by_cases he : chosenEmails o t = ∅
  · simp [he]
  · simp only [he, ne_eq, not_false_iff, if_true, if_pos]
    intro hcon
    have hlen := List.length_eq_zero.mpr hcon
    rw [List.length_map, Finset.length_sort] at hlen
    exact he (Finset.card_eq_zero.mp hlen)

theorem process_single_website (o : Oracle) (t : ParsedRow) :
    ∀ r ∈ process_single_enhanced o t, r.WEBSITE = (enhancedFields o t).2.1 := by
  intro r hr
  unfold process_single_enhanced at hr
  split at hr
  · rcases List.mem_map.mp hr with ⟨e, _, heq⟩
    rw [← heq]
  · rcases List.mem_singleton.mp hr with rfl
    rfl

theorem enhancedFields_website (o : Oracle) (t : ParsedRow) (h : t.website ≠ "") :
    (enhancedFields o t).2.1 = t.website := by
  unfold enhancedFields
  split
  · simp [pyOr, h]
  · rfl

/-! ## Remaining claim theorems -/

/-- C2 amended: static fetch yielding emails is terminal (no rendering, no
contact navigation); a static fetch yielding zero emails always escalates to
the rendering strategy exactly once; when the base-page load succeeds and
yields zero emails, contact-page navigation is invoked exactly once; when
the base page yields emails they are returned without contact navigation;
when the base-page load fails, the empty set is returned and contact-page
navigation is never invoked. -/
theorem C2_fallback_escalation (env : FetchEnv) :
    (fetch_emails_with_requests env ≠ ∅ →
      get_emails_for_website env = (fetch_emails_with_requests env, 0, 0)) ∧
    (fetch_emails_with_requests env = ∅ →
      (get_emails_for_website env).2.1 = 1) ∧
    (∀ h, fetch_emails_with_requests env = ∅ → env.renderPage = Except.ok h →
      EmailSpider.extract_emails_from_html h = ∅ →
      (get_emails_for_website env).2.2 = 1) ∧
    (∀ h, fetch_emails_with_requests env = ∅ → env.renderPage = Except.ok h →
      EmailSpider.extract_emails_from_html h ≠ ∅ →
      get_emails_for_website env = (EmailSpider.extract_emails_from_html h, 1, 0)) ∧
    (fetch_emails_with_requests env = ∅ → env.renderPage = Except.error () →
      get_emails_for_website env = (∅, 1, 0)) := by
  refine ⟨?_, ?_, ?_, ?_, ?_⟩
  · intro h1
    unfold get_emails_for_website
    simp [h1]
  · intro h1
    unfold get_emails_for_website
    simp [h1]
  · intro h h1 h2 h3
    unfold get_emails_for_website
    simp only [h1]
    unfold scrape_emails_with_selenium
    rw [h2]
    simp [h3]
    split <;> simp
  · intro h h1 h2 h3
    unfold get_emails_for_website
    simp only [h1]
    unfold scrape_emails_with_selenium
    rw [h2]
    simp [h3]
  · intro h1 h2
    unfold get_emails_for_website
    simp only [h1]
    unfold scrape_emails_with_selenium
    rw [h2]
    simp

theorem C2_fallback_escalation_witness :
    (get_emails_for_website ⟨Except.ok (200, ""), Except.ok "", ""⟩).2.2 = 1 :=
  (C2_fallback_escalation ⟨Except.ok (200, ""), Except.ok "", ""⟩).2.2.1 ""
    (by decide) rfl (by decide)

/-- C8 amended: an exception from the static fetch (timeout, connection
error) never propagates: it yields the empty set, and the orchestrator
escalates to the rendering strategy exactly once.  (A non-2xx response does
not raise and is not special-cased; see the counterexample.) -/
theorem C8_exception_treated_as_empty (env : FetchEnv)
    (h : env.staticResp = Except.error ()) :
    fetch_emails_with_requests env = ∅ ∧ (get_emails_for_website env).2.1 = 1 := by
  have hf : fetch_emails_with_requests env = ∅ := by
    unfold fetch_emails_with_requests
    rw [h]
  refine ⟨hf, ?_⟩
  unfold get_emails_for_website
  simp [hf]

theorem C8_exception_treated_as_empty_witness :
    fetch_emails_with_requests ⟨Except.error (), Except.ok "", ""⟩ = ∅ ∧
    (get_emails_for_website ⟨Except.error (), Except.ok "", ""⟩).2.1 = 1 :=
  C8_exception_treated_as_empty ⟨Except.error (), Except.ok "", ""⟩ rfl

/-- C7: `process_single_enhanced` always returns at least one output row:
exactly one row with an empty `EMAIL` field when the discovered email set is
empty, and one row per discovered email otherwise. -/
theorem C7_at_least_one_row (o : Oracle) (t : ParsedRow) :
    process_single_enhanced o t ≠ [] ∧
    (chosenEmails o t = ∅ →
      process_single_enhanced o t
        = [⟨t.clinic_name, (enhancedFields o t).2.1, (enhancedFields o t).2.2,
            (parse_address (enhancedFields o t).2.2).2.1, (enhancedFields o t).1, ""⟩]) ∧
    (chosenEmails o t ≠ ∅ →
      (process_single_enhanced o t).map LedgerRow.EMAIL
        = (chosenEmails o t).sort (fun a b => a ≤ b)) := by
  refine ⟨process_single_ne_nil o t, ?_, ?_⟩
  · intro he
    unfold process_single_enhanced
    simp [he]
  · intro he
    unfold process_single_enhanced
    simp only [he, ne_eq, not_false_iff, if_true, if_pos]
    rw [List.map_map]
    exact List.map_id _

theorem C7_at_least_one_row_witness :
    process_single_enhanced ⟨fun _ => ("", "", ""), fun _ => ∅⟩
        ⟨"m", "A", "", "", "", ""⟩
      = [⟨"A", "", "", "", "", ""⟩] := by
  have h := (C7_at_least_one_row ⟨fun _ => ("", "", ""), fun _ => ∅⟩
    ⟨"m", "A", "", "", "", ""⟩).2.1 (by decide)
  rw [h]
  decide

/-- C10: within one `process_csv` run, at most one task is queued per
identifier (`website` when non-empty, else the maps URL): the queued
identifiers are pairwise distinct, and no queued identifier was already in
the processed set when the loop started. -/
theorem C10_dispatch_deduplicated (rows : List ParsedRow) (s0 : Finset String) :
    ((queueTasks rows s0).1.map rowIdent).Nodup ∧
    ∀ t ∈ (queueTasks rows s0).1, rowIdent t ∉ s0 :=
  ⟨queueTasks_nodup rows s0, queueTasks_not_mem rows s0⟩

theorem C10_dispatch_deduplicated_witness :
    rowIdent ⟨"m", "A", "w", "", "", ""⟩ ∉ (∅ : Finset String) :=
  (C10_dispatch_deduplicated [⟨"m", "A", "w", "", "", ""⟩] ∅).2
    ⟨"m", "A", "w", "", "", ""⟩ (by decide)

/-- C4: with `force = false`, when the existing ledger contains a row whose
`WEBSITE` is `X` with a non-empty email result, no dispatched task has
identifier `X`. -/
theorem C4_resume_skips_completed (o : Oracle) (existing : List LedgerRow)
    (rows : List ParsedRow) (X : String)
    (hX : ∃ r ∈ existing, r.WEBSITE = X ∧ r.EMAIL ≠ "") :
    ∀ t ∈ (process_csv o false existing rows).2, rowIdent t ≠ X := by
  intro t ht
  have ht' : t ∈ (queueTasks rows (loadProcessed existing)).1 := by
    simpa [process_csv] using ht
  by_cases hXe : X = ""
  · subst hXe
    intro hid
    have hvalid := queueTasks_valid rows _ t ht'
    push_neg at hvalid
    unfold rowIdent pyOr at hid
    split at hid
    · rename_i hc
      exact hc hid
    · exact hvalid.1 hid
  · intro hid
    have hmem : X ∈ loadProcessed existing := by
      rcases hX with ⟨r, hr, hweb, _⟩
      exact (mem_loadProcessed existing X).mpr ⟨hXe, r, hr, hweb⟩
    exact queueTasks_not_mem rows _ t ht' (hid ▸ hmem)

theorem C4_resume_skips_completed_witness :
    rowIdent ⟨"m2", "B", "v", "", "", ""⟩ ≠ "w" :=
  C4_resume_skips_completed ⟨fun _ => ("", "", ""), fun _ => ∅⟩
    [⟨"A", "w", "", "", "", "e@x.com"⟩]
    [⟨"m", "A", "w", "", "", ""⟩, ⟨"m2", "B", "v", "", "", ""⟩] "w"
    ⟨⟨"A", "w", "", "", "", "e@x.com"⟩, by decide, by decide, by decide⟩
    ⟨"m2", "B", "v", "", "", ""⟩ (by decide)

/-- C3 amended: when every parsed row has a non-empty website field (so the
task identifier coincides with the `WEBSITE` written to the ledger), a
second `force = false` run over the same rows with run 1's ledger dispatches
no task and writes back the identical ledger. -/
theorem C3_idempotent_for_website_jobs (o : Oracle) (rows : List ParsedRow)
    (hw : ∀ r ∈ rows, r.website ≠ "") :
    (process_csv o false (process_csv o false [] rows).1 rows).2 = [] ∧
    (process_csv o false (process_csv o false [] rows).1 rows).1
      = (process_csv o false [] rows).1 := by
  have hL1 : (process_csv o false [] rows).1
      = ((queueTasks rows (loadProcessed [])).1).flatMap (process_single_enhanced o) := by
    simp [process_csv]
  have hcover : ∀ r ∈ rows, ¬(r.maps_url = "" ∨ r.clinic_name = "") →
      rowIdent r ∈ loadProcessed (process_csv o false [] rows).1 := by
    intro r hr hvalid
    have h1 := queueTasks_covers rows (loadProcessed []) r hr hvalid
    rcases queueTasks_final_mem rows _ _ h1 with hmem | ⟨t, ht, hid⟩
    · simp [loadProcessed] at hmem
    · have htr := queueTasks_sub rows _ t ht
      have htw := hw t htr
      have hidw : rowIdent t = t.website := by simp [rowIdent, pyOr, htw]
      rcases List.exists_mem_of_ne_nil _ (process_single_ne_nil o t) with ⟨row, hrow⟩
      have hrowL1 : row ∈ (process_csv o false [] rows).1 := by
        rw [hL1]
        exact List.mem_flatMap.mpr ⟨t, ht, hrow⟩
      have hweb : row.WEBSITE = t.website := by
        rw [process_single_website o t row hrow, enhancedFields_website o t htw]
      rw [← hid, hidw]
      exact (mem_loadProcessed _ _).mpr ⟨htw, row, hrowL1, hweb⟩
  have htasks2 : (queueTasks rows (loadProcessed (process_csv o false [] rows).1)).1 = [] :=
    queueTasks_skip_all rows _ hcover
  constructor
  · show (queueTasks rows (loadProcessed (process_csv o false [] rows).1)).1 = []
    exact htasks2
  · show (process_csv o false [] rows).1
        ++ ((queueTasks rows (loadProcessed (process_csv o false [] rows).1)).1).flatMap
            (process_single_enhanced o)
      = (process_csv o false [] rows).1
    rw [htasks2]
    simp

theorem C3_idempotent_for_website_jobs_witness :
    (process_csv (⟨fun _ => ("", "", ""), fun _ => ∅⟩ : Oracle) false
        (process_csv (⟨fun _ => ("", "", ""), fun _ => ∅⟩ : Oracle) false []
          [⟨"m", "A", "http://w", "", "", ""⟩]).1
        [⟨"m", "A", "http://w", "", "", ""⟩]).2 = [] ∧
    (process_csv (⟨fun _ => ("", "", ""), fun _ => ∅⟩ : Oracle) false
        (process_csv (⟨fun _ => ("", "", ""), fun _ => ∅⟩ : Oracle) false []
          [⟨"m", "A", "http://w", "", "", ""⟩]).1
        [⟨"m", "A", "http://w", "", "", ""⟩]).1
      = (process_csv (⟨fun _ => ("", "", ""), fun _ => ∅⟩ : Oracle) false []
          [⟨"m", "A", "http://w", "", "", ""⟩]).1 :=
  C3_idempotent_for_website_jobs ⟨fun _ => ("", "", ""), fun _ => ∅⟩
    [⟨"m", "A", "http://w", "", "", ""⟩] (by decide)

/-! ## Supporting lemmas for the extractor grammar claim -/

theorem takeWhile_append_eq {p : Char → Bool} :
    ∀ (l : List Char) (q : Char) (r : List Char), (∀ c ∈ l, p c = true) → p q = false →
      (l ++ q :: r).takeWhile p = l ∧ (l ++ q :: r).dropWhile p = q :: r := by
  intro l
  induction l with
  | nil =>
    intro q r _ hq
    simp [List.takeWhile, List.dropWhile, hq]
  | cons a as ih =>
    intro q r hall hq
    have ha : p a = true := hall a (List.mem_cons_self _ _)
    have ih' := ih q r (fun c hc => hall c (List.mem_cons_of_mem a hc)) hq
    simp [List.takeWhile, List.dropWhile, ha, ih'.1, ih'.2]

theorem mem_takeWhile_true {p : Char → Bool} :
    ∀ (l : List Char) (x : Char), x ∈ l.takeWhile p → p x = true := by
  intro l
  induction l with
  | nil => intro x hx; simp [List.takeWhile] at hx
  | cons a as ih =>
    intro x hx
    by_cases ha : p a = true
    · rw [List.takeWhile_cons, if_pos ha] at hx
      rcases List.mem_cons.mp hx with h | h
      · exact h ▸ ha
      · exact ih x h
    · rw [List.takeWhile_cons, if_neg ha] at hx
      simp at hx

theorem tryDot_spec (wb : Bool) (lp R rest : List Char) :
    ∀ n em, tryDot wb lp R rest n = some em →
      em.lp = lp ∧ em.dom ≠ [] ∧ (∀ c ∈ em.dom, c ∈ R) ∧
        (∀ c ∈ em.tld, c.isAlpha = true) ∧ 2 ≤ em.tld.length := by
  intro n
  induction n with
  | zero => intro em h; simp [tryDot] at h
  | succ p ih =>
    intro em h
    simp only [tryDot] at h
    split at h
    · rename_i afterDot heq
      split at h
      · rename_i hguard
        injection h with h'
        subst h'
        refine ⟨rfl, ?_, ?_, ?_, ?_⟩
        · show List.take (p + 1) R ≠ []
          intro hnil
          have htk : (R.take (p + 1)).length = 0 := by rw [hnil]; rfl
          rw [List.length_take] at htk
          have hdl : (R.drop (p + 1)).length = R.length - (p + 1) := List.length_drop _ _
          rw [heq] at hdl
          simp only [List.length_cons] at hdl
          omega
        · show ∀ c ∈ List.take (p + 1) R, c ∈ R
          intro c hc
          exact List.take_subset _ _ hc
        · show ∀ c ∈ List.takeWhile Char.isAlpha afterDot, c.isAlpha = true
          intro c hc
          exact mem_takeWhile_true _ c hc
        · show 2 ≤ (List.takeWhile Char.isAlpha afterDot).length
          have hg := (Bool.and_eq_true _ _).mp hguard
          exact of_decide_eq_true hg.1
      · exact ih em h
    · exact ih em h

theorem matchEmailAt_spec (wb : Bool) (s : List Char) (em : EmailMatch)
    (h : matchEmailAt wb s = some em) :
    em.lp ≠ [] ∧ (∀ c ∈ em.lp, isLocalChar c = true) ∧ em.dom ≠ [] ∧
      (∀ c ∈ em.dom, isDomainChar c = true) ∧
      (∀ c ∈ em.tld, c.isAlpha = true) ∧ 2 ≤ em.tld.length := by
  unfold matchEmailAt at h
  split at h
  · rename_i r2 heq
    dsimp only at h
    split at h
    · exact absurd h (by simp)
    · rename_i hne
      have hspec := tryDot_spec wb (s.takeWhile isLocalChar)
        (r2.takeWhile isDomainChar) (r2.dropWhile isDomainChar) _ em h
      refine ⟨?_, ?_, hspec.2.1, ?_, hspec.2.2.2⟩
      · rw [hspec.1]
        intro hc
        exact hne (by rw [hc]; rfl)
      · intro c hc
        rw [hspec.1] at hc
        exact mem_takeWhile_true _ c hc
      · intro c hc
        exact mem_takeWhile_true _ c (hspec.2.2.1 c hc)
  · exact absurd h (by simp)

theorem emailGrammar_of_parts (lp dom tld : List Char)
    (hlp : lp ≠ []) (hlpc : ∀ c ∈ lp, isLocalChar c = true)
    (hdom : dom ≠ []) (hdomc : ∀ c ∈ dom, isDomainChar c = true)
    (htld : ∀ c ∈ tld, c.isAlpha = true) (hlen : 2 ≤ tld.length) :
    emailGrammar (lp ++ '@' :: (dom ++ '.' :: tld)) = true := by
  have hat : isLocalChar '@' = false := by decide
  have hsplit := takeWhile_append_eq lp '@' (dom ++ '.' :: tld) hlpc hat
  unfold emailGrammar
  rw [hsplit.1, hsplit.2]
  have hrev : (dom ++ '.' :: tld).reverse = tld.reverse ++ '.' :: dom.reverse := by
    rw [List.reverse_append, List.reverse_cons]
    simp
  have htldrev : ∀ c ∈ tld.reverse, Char.isAlpha c = true := by
    intro c hc
    exact htld c (List.mem_reverse.mp hc)
  have hdot : Char.isAlpha '.' = false := by decide
  have hsplit2 := takeWhile_append_eq tld.reverse '.' dom.reverse htldrev hdot
  simp only [hrev, hsplit2.1, hsplit2.2]
  have h1 : lp.isEmpty = false := by
    cases lp with
    | nil => exact absurd rfl hlp
    | cons a as => rfl
  have h2 : dom.reverse.isEmpty = false := by
    cases hd : dom.reverse with
    | nil => exact absurd (List.reverse_eq_nil_iff.mp hd) hdom
    | cons a as => rfl
  have h3 : dom.reverse.all isDomainChar = true := by
    rw [List.all_eq_true]
    intro c hc
    exact hdomc c (List.mem_reverse.mp hc)
  simp [h1, h2, h3, List.length_reverse, hlen]

theorem scanEmails_sound : ∀ (fuel : Nat) (w : Bool) (s : List Char),
    ∀ m ∈ scanEmailsAux fuel w s,
      ∃ em s', matchEmailAt true s' = some em ∧ m = emailString em := by
  intro fuel
  induction fuel with
  | zero => intro w s m hm; simp [scanEmailsAux] at hm
  | succ f ih =>
    intro w s m hm
    match s with
    | [] => simp [scanEmailsAux] at hm
    | c :: rest =>
      simp only [scanEmailsAux] at hm
      split at hm
      · split at hm
        · rename_i em heq
          rcases List.mem_cons.mp hm with h | h
          · exact ⟨em, c :: rest, heq, h⟩
          · exact ih true _ m h
        · exact ih _ rest m hm
      · exact ih _ rest m hm

theorem scanMailto_sound : ∀ (fuel : Nat) (s : List Char),
    ∀ m ∈ scanMailtoAux fuel s,
      ∃ em s', matchEmailAt false s' = some em ∧ m = emailString em := by
  intro fuel
  induction fuel with
  | zero => intro s m hm; simp [scanMailtoAux] at hm
  | succ f ih =>
    intro s m hm
    match s with
    | [] => simp [scanMailtoAux] at hm
    | c :: rest =>
      simp only [scanMailtoAux] at hm
      split at hm
      · split at hm
        · rename_i em heq
          rcases List.mem_cons.mp hm with h | h
          · exact ⟨em, _, heq, h⟩
          · exact ih _ m h
        · exact ih rest m hm
      · exact ih rest m hm

theorem mem_foldl_insertIf {p : List Char → Bool} :
    ∀ (l : List (List Char)) (acc : Finset String) (e : String),
      e ∈ l.foldl (fun acc m => if p m then insert (String.mk m) acc else acc) acc →
      e ∈ acc ∨ ∃ m ∈ l, e = String.mk m := by
  intro l
  induction l with
  | nil => intro acc e he; exact Or.inl he
  | cons a rest ih =>
    intro acc e he
    simp only [List.foldl_cons] at he
    rcases ih _ e he with hacc | ⟨m, hm, hme⟩
    · by_cases hp : p a = true
      · rw [if_pos hp] at hacc
        rcases Finset.mem_insert.mp hacc with h | h
        · exact Or.inr ⟨a, List.mem_cons_self _ _, h⟩
        · exact Or.inl h
      · rw [if_neg hp] at hacc
        exact Or.inl hacc
    · exact Or.inr ⟨m, List.mem_cons_of_mem a hm, hme⟩

theorem grammar_of_match (wb : Bool) (s' : List Char) (em : EmailMatch)
    (h : matchEmailAt wb s' = some em) : isEmailB (String.mk (emailString em)) = true := by
  have hspec := matchEmailAt_spec wb s' em h
  unfold isEmailB
  show emailGrammar (emailString em) = true
  unfold emailString
  exact emailGrammar_of_parts em.lp em.dom em.tld hspec.1 hspec.2.1 hspec.2.2.1
    hspec.2.2.2.1 hspec.2.2.2.2.1 hspec.2.2.2.2.2

/-- C6 amended: every string returned by the `utils.py` implementation —
free-text and mailto pass alike — matches the email grammar
`local-part@domain.tld` with a tld of at least two letters. -/
theorem C6_utils_output_matches_grammar (html : String) (e : String)
    (he : e ∈ Utils.extract_emails_from_html html) : isEmailB e = true := by
  unfold Utils.extract_emails_from_html at he
  rcases mem_foldl_insertIf _ _ _ he with hp1 | ⟨m, hm, rfl⟩
  · rcases mem_foldl_insertIf _ _ _ hp1 with hemp | ⟨m, hm, rfl⟩
    · simp at hemp
    · rcases scanEmails_sound _ _ _ m hm with ⟨em, s', hmt, rfl⟩
      exact grammar_of_match true s' em hmt
  · rcases scanMailto_sound _ _ m hm with ⟨em, s', hmt, rfl⟩
    exact grammar_of_match false s' em hmt

theorem C6_utils_output_matches_grammar_witness :
    "bob@domain.org" ∈ Utils.extract_emails_from_html "<p>bob@domain.org</p>" ∧
    isEmailB "bob@domain.org" = true :=
  ⟨by decide, C6_utils_output_matches_grammar "<p>bob@domain.org</p>" "bob@domain.org" (by decide)⟩

/-! ## Supporting lemmas for the implementation-agreement claim -/

theorem startsWithCI_eq : ∀ (p s : List Char),
    startsWithCI p s = startsWithL p (toLowerL s) := by
  intro p
  induction p with
  | nil => intro s; cases s <;> rfl
  | cons a as ih =>
    intro s
    cases s with
    | nil => rfl
    | cons c cs =>
      show ((Char.toLower c == a) && startsWithCI as cs)
          = ((a == Char.toLower c) && startsWithL as (toLowerL cs))
      rw [ih cs, Bool.beq_comm]

theorem startsWithL_append_right : ∀ (n s r : List Char),
    startsWithL n s = true → startsWithL n (s ++ r) = true := by
  intro n
  induction n with
  | nil => intro s r _; rfl
  | cons a as ih =>
    intro s r h
    cases s with
    | nil => simp [startsWithL] at h
    | cons c cs =>
      rcases Bool.and_eq_true _ _ |>.mp h with ⟨h1, h2⟩
      show ((a == c) && startsWithL as (cs ++ r)) = true
      rw [h1, ih cs r h2]
      rfl

theorem containsSub_of_startsWith : ∀ (n s : List Char),
    startsWithL n s = true → containsSub n s = true := by
  intro n s h
  cases s with
  | nil =>
    cases n with
    | nil => rfl
    | cons a as => simp [startsWithL] at h
  | cons c cs =>
    show (startsWithL n (c :: cs) || containsSub n cs) = true
    rw [h]
    rfl

theorem containsSub_cons (n : List Char) (c : Char) (s : List Char)
    (h : containsSub n s = true) : containsSub n (c :: s) = true := by
  show (startsWithL n (c :: s) || containsSub n s) = true
  rw [h]
  simp

theorem containsSub_append_left : ∀ (pre n s : List Char),
    containsSub n s = true → containsSub n (pre ++ s) = true := by
  intro pre
  induction pre with
  | nil => intro n s h; exact h
  | cons a as ih => intro n s h; exact containsSub_cons _ a _ (ih n s h)

theorem containsSub_append_right : ∀ (n s r : List Char),
    containsSub n s = true → containsSub n (s ++ r) = true := by
  intro n s
  induction s with
  | nil =>
    intro r h
    have hn : n = [] := by
      cases n with
      | nil => rfl
      | cons a as => simp [containsSub] at h
    subst hn
    cases r <;> rfl
  | cons c cs ih =>
    intro r h
    rcases Bool.or_eq_true _ _ |>.mp h with h1 | h2
    · show (startsWithL n (c :: cs ++ r) || _) = true
      rw [startsWithL_append_right n (c :: cs) r h1]
      rfl
    · exact containsSub_cons _ c _ (ih r h2)

theorem scanMailto_nil_of_no_mailto : ∀ (fuel : Nat) (s : List Char),
    containsSub "mailto:".data (toLowerL s) = false → scanMailtoAux fuel s = [] := by
  intro fuel
  induction fuel with
  | zero => intro s _; rfl
  | succ f ih =>
    intro s hno
    cases s with
    | nil => rfl
    | cons c rest =>
      have hcons : containsSub "mailto:".data (toLowerL (c :: rest))
          = (startsWithL "mailto:".data (toLowerL (c :: rest))
              || containsSub "mailto:".data (toLowerL rest)) := by
        show containsSub "mailto:".data (Char.toLower c :: toLowerL rest) = _
        rfl
      rw [hcons] at hno
      rcases Bool.or_eq_false_iff.mp hno with ⟨h1, h2⟩
      have hci : startsWithCI "mailto:".data (c :: rest) = false := by
        rw [startsWithCI_eq]
        exact h1
      simp only [scanMailtoAux, hci]
      simp only [Bool.false_eq_true, if_false]
      exact ih rest h2

theorem infix_suffix_trans {m r s : List Char}
    (hinf : ∃ pre post, r = pre ++ m ++ post) (hsuf : r <:+ s) :
    ∃ pre post, s = pre ++ m ++ post := by
  obtain ⟨p1, p2, rfl⟩ := hinf
  obtain ⟨t, ht⟩ := hsuf
  exact ⟨t ++ p1, p2, by rw [← ht]; simp [List.append_assoc]⟩

theorem attrValue_rest_suffix (r2 : List Char) : (attrValue r2).2 <:+ r2 := by
  match r2 with
  | [] => exact List.nil_suffix
  | q :: r3 =>
    simp only [attrValue]
    split
    · show (List.dropWhile (fun d => d != q) r3).drop 1 <:+ q :: r3
      exact ((List.drop_suffix 1 _).trans (List.dropWhile_suffix _)).trans
        (List.suffix_cons q r3)
    · exact List.dropWhile_suffix _

theorem attrValue_val_inside (r2 : List Char) :
    ∃ pre post, r2 = pre ++ (attrValue r2).1 ++ post := by
  match r2 with
  | [] => exact ⟨[], [], rfl⟩
  | q :: r3 =>
    simp only [attrValue]
    split
    · obtain ⟨t, ht⟩ := List.takeWhile_prefix (l := r3) (fun d => d != q)
      refine ⟨[q], t, ?_⟩
      dsimp only
      conv_lhs => rw [← ht]
      rfl
    · obtain ⟨t, ht⟩ := List.takeWhile_prefix
        (l := q :: r3) (fun d => !(isTagWs d) && d != '>')
      refine ⟨[], t, ?_⟩
      dsimp only
      conv_lhs => rw [← ht]
      rfl

theorem parseAttrs_rest_suffix : ∀ (fuel : Nat) (found : Option (List Char))
    (s : List Char) (res : Option (List Char)) (r : List Char),
    parseAttrsAux fuel found s = (res, r) → r <:+ s := by
  intro fuel
  induction fuel with
  | zero =>
    intro found s res r h
    simp only [parseAttrsAux] at h
    injection h with h1 h2
    rw [← h2]
  | succ f ih =>
    intro found s res r h
    match s with
    | [] =>
      simp only [parseAttrsAux] at h
      injection h with h1 h2
      rw [← h2]
    | c :: rest =>
      simp only [parseAttrsAux] at h
      split at h
      · injection h with h1 h2
        rw [← h2]
        exact List.suffix_cons c rest
      · split at h
        · exact (ih _ _ _ _ h).trans (List.suffix_cons c rest)
        · split at h
          · rename_i r2 heq
            have hr2 : (attrValue r2).2 <:+ c :: rest := by
              have h3 : r2 <:+ '=' :: r2 := List.suffix_cons '=' r2
              have h4 : '=' :: r2 <:+ c :: rest := by
                rw [← heq]
                exact List.dropWhile_suffix _
              exact ((attrValue_rest_suffix r2).trans h3).trans h4
            split at h
            · exact (ih _ _ _ _ h).trans hr2
            · exact (ih _ _ _ _ h).trans hr2
          · exact (ih _ _ _ _ h).trans (List.dropWhile_suffix _)

theorem parseAttrs_href_inside : ∀ (fuel : Nat) (found : Option (List Char))
    (s : List Char) (hv : List Char) (r : List Char),
    parseAttrsAux fuel found s = (some hv, r) →
      found = some hv ∨ ∃ pre post, s = pre ++ hv ++ post := by
  intro fuel
  induction fuel with
  | zero =>
    intro found s hv r h
    simp only [parseAttrsAux] at h
    injection h with h1 h2
    exact Or.inl h1
  | succ f ih =>
    intro found s hv r h
    match s with
    | [] =>
      simp only [parseAttrsAux] at h
      injection h with h1 h2
      exact Or.inl h1
    | c :: rest =>
      simp only [parseAttrsAux] at h
      split at h
      · injection h with h1 h2
        exact Or.inl h1
      · split at h
        · rcases ih _ _ _ _ h with hl | hinf
          · exact Or.inl hl
          · exact Or.inr (infix_suffix_trans hinf (List.suffix_cons c rest))
        · split at h
          · rename_i r2 heq
            have hr2suf : '=' :: r2 <:+ c :: rest := by
              rw [← heq]
              exact List.dropWhile_suffix _
            have hvalinf : ∃ pre post, c :: rest = pre ++ (attrValue r2).1 ++ post :=
              infix_suffix_trans
                (infix_suffix_trans (attrValue_val_inside r2) (List.suffix_cons '=' r2))
                hr2suf
            have hrestsuf : (attrValue r2).2 <:+ c :: rest :=
              ((attrValue_rest_suffix r2).trans (List.suffix_cons '=' r2)).trans hr2suf
            split at h
            · rcases ih _ _ _ _ h with hl | hinf
              · rcases Option.some.inj hl with rfl
                exact Or.inr hvalinf
              · exact Or.inr (infix_suffix_trans hinf hrestsuf)
            · rcases ih _ _ _ _ h with hl | hinf
              · exact Or.inl hl
              · exact Or.inr (infix_suffix_trans hinf hrestsuf)
          · rcases ih _ _ _ _ h with hl | hinf
            · exact Or.inl hl
            · exact Or.inr (infix_suffix_trans hinf (List.dropWhile_suffix _))

theorem decodeCharRefsAux_of_no_amp : ∀ (fuel : Nat) (s : List Char), '&' ∉ s →
    decodeCharRefsAux fuel s = s := by
  intro fuel
  induction fuel with
  | zero => intro s _; rfl
  | succ f ih =>
    intro s hs
    cases s with
    | nil => rfl
    | cons c rest =>
      have hc : ¬(c = '&') := by
        intro h
        exact hs (by rw [← h]; exact List.mem_cons_self c rest)
      simp only [decodeCharRefsAux]
      rw [if_neg hc, ih rest (fun hm => hs (List.mem_cons_of_mem c hm))]

theorem decodeCharRefs_of_no_amp (s : List Char) (h : '&' ∉ s) :
    decodeCharRefs s = s :=
  decodeCharRefsAux_of_no_amp _ s h

theorem anchorHrefs_inside : ∀ (fuel : Nat) (s : List Char),
    ∀ hv ∈ anchorHrefsAux fuel s,
      ∃ h0 pre post, hv = decodeCharRefs h0 ∧ s = pre ++ h0 ++ post := by
  intro fuel
  induction fuel with
  | zero => intro s hv hm; simp [anchorHrefsAux] at hm
  | succ f ih =>
    intro s hv hm
    match s with
    | [] => simp [anchorHrefsAux] at hm
    | c :: rest =>
      simp only [anchorHrefsAux] at hm
      split at hm
      · split at hm
        · rename_i a r2
          split at hm
          · rcases hpa : parseAttrsAux (r2.length + 1) none r2 with ⟨found, r3⟩
            rw [hpa] at hm
            have hsufr2 : r2 <:+ c :: a :: r2 :=
              (List.suffix_cons a r2).trans (List.suffix_cons c (a :: r2))
            cases found with
            | some h0 =>
              replace hm : hv ∈ decodeCharRefs h0 :: anchorHrefsAux f r3 := hm
              rcases List.mem_cons.mp hm with rfl | hmem
              · rcases parseAttrs_href_inside _ _ _ _ _ hpa with hl | hinf
                · exact absurd hl (by simp)
                · obtain ⟨pre, post, heq⟩ := infix_suffix_trans hinf hsufr2
                  exact ⟨h0, pre, post, rfl, heq⟩
              · obtain ⟨h1, pre, post, hde, heq0⟩ := ih _ hv hmem
                obtain ⟨pre2, post2, heq⟩ := infix_suffix_trans ⟨pre, post, heq0⟩
                  ((parseAttrs_rest_suffix _ _ _ _ _ hpa).trans hsufr2)
                exact ⟨h1, pre2, post2, hde, heq⟩
            | none =>
              replace hm : hv ∈ anchorHrefsAux f r3 := hm
              obtain ⟨h1, pre, post, hde, heq0⟩ := ih _ hv hm
              obtain ⟨pre2, post2, heq⟩ := infix_suffix_trans ⟨pre, post, heq0⟩
                ((parseAttrs_rest_suffix _ _ _ _ _ hpa).trans hsufr2)
              exact ⟨h1, pre2, post2, hde, heq⟩
          · obtain ⟨h1, pre, post, hde, heq0⟩ := ih _ hv hm
            obtain ⟨pre2, post2, heq⟩ := infix_suffix_trans ⟨pre, post, heq0⟩
              (List.suffix_cons c (a :: r2))
            exact ⟨h1, pre2, post2, hde, heq⟩
        · simp at hm
      · obtain ⟨h1, pre, post, hde, heq0⟩ := ih _ hv hm
        obtain ⟨pre2, post2, heq⟩ := infix_suffix_trans ⟨pre, post, heq0⟩
          (List.suffix_cons c rest)
        exact ⟨h1, pre2, post2, hde, heq⟩

theorem foldl_hrefs_id : ∀ (hs : List (List Char)) (acc : Finset String),
    (∀ h ∈ hs, startsWithCI "mailto:".data h = false) →
    hs.foldl (fun acc h =>
      if startsWithCI "mailto:".data h then
        let e := List.takeWhile (fun d => d != '?') (pySplitLast "mailto:".data h)
        if !e.isEmpty && noiseFree noise2 e then insert (String.mk e) acc else acc
      else acc) acc = acc := by
  intro hs
  induction hs with
  | nil => intro acc _; rfl
  | cons a rest ih =>
    intro acc hall
    simp only [List.foldl_cons]
    rw [if_neg (by rw [hall a (List.mem_cons_self _ _)]; simp)]
    exact ih acc (fun h hm => hall h (List.mem_cons_of_mem a hm))

/-- C9 amended: the two implementations share the free-text pass and differ
only in mailto handling (anchor hrefs with character references decoded and
split verbatim, versus a grammar-checked `mailto:` regex over the raw
text), so they return the same set on every input in which the substring
`mailto:` does not occur in any letter casing and the character `&` (which
could open a character reference decoding to `mailto:`) does not occur. -/
theorem C9_agree_without_mailto (html : String)
    (hno : containsSub "mailto:".data (toLowerL html.data) = false)
    (hamp : '&' ∉ html.data) :
    EmailSpider.extract_emails_from_html html = Utils.extract_emails_from_html html := by
  unfold EmailSpider.extract_emails_from_html Utils.extract_emails_from_html
  dsimp only
  have hmailto : findallMailto html.data = [] :=
    scanMailto_nil_of_no_mailto _ _ hno
  rw [hmailto]
  have hanchor : ∀ h ∈ anchorHrefs html.data, startsWithCI "mailto:".data h = false := by
    intro h hm
    by_contra hcon
    rw [Bool.not_eq_false] at hcon
    obtain ⟨h0, pre, post, hde, heq⟩ := anchorHrefs_inside _ _ h hm
    have hamp0 : '&' ∉ h0 := by
      intro hm0
      apply hamp
      rw [heq]
      simp only [List.mem_append]
      exact Or.inl (Or.inr hm0)
    rw [hde, decodeCharRefs_of_no_amp h0 hamp0] at hcon
    have h1 : startsWithL "mailto:".data (toLowerL h0) = true := by
      rw [← startsWithCI_eq]
      exact hcon
    have h2 : containsSub "mailto:".data (toLowerL h0 ++ toLowerL post) = true :=
      containsSub_append_right _ _ _ (containsSub_of_startsWith _ _ h1)
    have h3 : containsSub "mailto:".data
        (toLowerL pre ++ (toLowerL h0 ++ toLowerL post)) = true :=
      containsSub_append_left _ _ _ h2
    have h4 : toLowerL html.data = toLowerL pre ++ (toLowerL h0 ++ toLowerL post) := by
      rw [heq]
      simp [toLowerL, List.map_append]
    rw [h4] at hno
    rw [hno] at h3
    exact Bool.false_ne_true h3
  exact foldl_hrefs_id _ _ hanchor

theorem C9_agree_without_mailto_witness :
    EmailSpider.extract_emails_from_html "<p>alice@example.com</p>"
      = Utils.extract_emails_from_html "<p>alice@example.com</p>" :=
  C9_agree_without_mailto "<p>alice@example.com</p>" (by decide) (by decide)

/-- Character references in anchor hrefs are decoded before the `^mailto:`
check, as the html.parser tokenizer does: in
`<a href="&#109;ailto:banner@y.com">x</a>` the raw markup never contains
the substring `mailto:`, yet the decoded href starts with it, so the
spider's mailto pass emits `banner@y.com` (only logo/icon filtered there)
while the utils regex, running over the raw text, finds nothing. -/
theorem decode_divergence_example :
    EmailSpider.extract_emails_from_html "<a href=\"&#109;ailto:banner@y.com\">x</a>"
      = {"banner@y.com"} ∧
    Utils.extract_emails_from_html "<a href=\"&#109;ailto:banner@y.com\">x</a>"
      = ∅ := by decide
